import Mathlib

/-!
Verification of the backoff n-gram language model in
src/models/backoff.py (class BackoffLM).

Embedding choices, documented once here:
* A Python utterance string is modelled by its list of whitespace tokens
  (the code always consumes utterances through utt.split()).
* A token is an Option String: none models the Python None value that the
  code inserts as the start-of-utterance boundary token and that nltk uses
  as its left/right padding symbol; some s models an ordinary word.
* Python dicts, Counters and defaultdicts are modelled as insertion-ordered
  association lists with unique keys; dict[k] = v replaces in place when k
  is present and appends otherwise, del removes the key, and a missing
  Counter key reads as 0.  Where the Python code iterates over a set
  (the removed low-frequency words in BackoffLM.__train_vocab) the
  iteration order is unspecified in Python; the embedding fixes the
  first-insertion order of the underlying Counter.
* Probabilities (Python floats produced by true division of counts) are
  modelled as rationals; the log-domain perplexity computation is modelled
  over the reals.  Python raises ZeroDivisionError where a denominator is
  zero; the places where that is reachable are modelled with Err.zeroDivision.
* error(...) followed by exit() in the source (the is_normalized guards)
  rejects the operation fatally; it is modelled as Except.error
  Err.invalidState.  A missing dict key raises KeyError, modelled as
  Except.error Err.keyError.
-/

/-- A token: none is the Python None boundary/padding symbol, some s a word. -/
abbrev Tok := Option String

/-- A next-token distribution (Python defaultdict(float)): weights are
raw counts during training and probabilities after normalization. -/
abbrev NextDist := List (Tok × ℚ)

/-- The context table (the BackoffLM dict itself): context tuple to
next-token distribution. -/
abbrev Table := List (List Tok × NextDist)

/-- The vocabulary (collections.Counter): token to observed count. -/
abbrev Vocab := List (Tok × ℕ)

/-- Lookup in an insertion-ordered association list (Python dict read). -/
def alookup {α β : Type} [DecidableEq α] : List (α × β) → α → Option β
  | [], _ => none
  | (k0, v0) :: rest, k => if k = k0 then some v0 else alookup rest k

/-- Assignment d[k] = v on a Python dict: replace in place if the key is
present, append at the end otherwise. -/
def aset {α β : Type} [DecidableEq α] : List (α × β) → α → β → List (α × β)
  | [], k, v => [(k, v)]
  | (k0, v0) :: rest, k, v =>
      if k = k0 then (k, v) :: rest else (k0, v0) :: aset rest k v

/-- Deletion del d[k] on a Python dict: remove the key. -/
def adel {α β : Type} [DecidableEq α] : List (α × β) → α → List (α × β)
  | [], _ => []
  | (k0, v0) :: rest, k => if k = k0 then rest else (k0, v0) :: adel rest k

theorem alookup_aset_eq {α β : Type} [DecidableEq α] (l : List (α × β)) (k : α) (v : β) :
    alookup (aset l k v) k = some v := by
  induction l with
  | nil => simp [aset, alookup]
  | cons p rest ih =>
      by_cases h : k = p.1
      · simp [aset, alookup, h]
      · simp [aset, alookup, h, ih]

theorem alookup_aset_ne {α β : Type} [DecidableEq α] (l : List (α × β)) (k k' : α) (v : β)
    (h : k' ≠ k) : alookup (aset l k v) k' = alookup l k' := by
  induction l with
  | nil => simp [aset, alookup, h]
  | cons p rest ih =>
      by_cases hk : k = p.1
      · subst hk
        simp [aset, alookup, h]
      · by_cases hk' : k' = p.1
        · simp [aset, alookup, hk, hk']
        · simp [aset, alookup, hk, hk', ih]

theorem aset_lookup_self {α β : Type} [DecidableEq α] (l : List (α × β)) (k : α) (v : β)
    (h : alookup l k = some v) : aset l k v = l := by
  induction l with
  | nil => simp [alookup] at h
  | cons p rest ih =>
      by_cases hk : k = p.1
      · subst hk
        simp [alookup] at h
        simp [aset, ← h]
      · simp [alookup, hk] at h
        simp [aset, hk, ih h]

theorem alookup_mem {α β : Type} [DecidableEq α] (l : List (α × β)) (k : α) (v : β)
    (h : alookup l k = some v) : (k, v) ∈ l := by
  induction l with
  | nil => simp [alookup] at h
  | cons p rest ih =>
      by_cases hk : k = p.1
      · subst hk
        simp [alookup] at h
        subst h
        simp
      · simp [alookup, hk] at h
        exact List.mem_cons_of_mem _ (ih h)

theorem alookup_map_val {α β γ : Type} [DecidableEq α] (f : β → γ) (l : List (α × β)) (k : α) :
    alookup (l.map (fun p => (p.1, f p.2))) k = (alookup l k).map f := by
  induction l with
  | nil => simp [alookup]
  | cons p rest ih =>
      by_cases hk : k = p.1
      · simp [alookup, hk]
      · simp [alookup, hk, ih]

theorem alookup_adel_ne {α β : Type} [DecidableEq α] (l : List (α × β)) (k k' : α)
    (h : k' ≠ k) : alookup (adel l k) k' = alookup l k' := by
  induction l with
  | nil => simp [adel]
  | cons p rest ih =>
      by_cases hk : k = p.1
      · subst hk
        simp [adel, alookup, h]
      · by_cases hk' : k' = p.1
        · simp [adel, alookup, hk, hk']
        · simp [adel, alookup, hk, hk', ih]

theorem alookup_eq_none_iff {α β : Type} [DecidableEq α] (l : List (α × β)) (k : α) :
    alookup l k = none ↔ k ∉ l.map Prod.fst := by
  induction l with
  | nil => simp [alookup]
  | cons p rest ih =>
      by_cases hk : k = p.1
      · simp [alookup, hk]
      · simp [alookup, hk, ih]

theorem alookup_isSome_iff {α β : Type} [DecidableEq α] (l : List (α × β)) (k : α) :
    (alookup l k).isSome = true ↔ k ∈ l.map Prod.fst := by
  have h2 := alookup_eq_none_iff l k
  cases h : alookup l k with
  | none => simpa [h] using h2.mp h
  | some v =>
      simp only [Option.isSome_some, true_iff]
      by_contra hmem
      rw [← alookup_eq_none_iff] at hmem
      rw [h] at hmem
      exact Option.noConfusion hmem

theorem aset_keys_of_isSome {α β : Type} [DecidableEq α] (l : List (α × β)) (k : α) (v : β)
    (h : (alookup l k).isSome = true) :
    (aset l k v).map Prod.fst = l.map Prod.fst := by
  induction l with
  | nil => simp [alookup] at h
  | cons p rest ih =>
      by_cases hk : k = p.1
      · simp [aset, hk]
      · simp [alookup, hk] at h
        simp [aset, hk, ih h]

theorem aset_keys_of_none {α β : Type} [DecidableEq α] (l : List (α × β)) (k : α) (v : β)
    (h : alookup l k = none) :
    (aset l k v).map Prod.fst = l.map Prod.fst ++ [k] := by
  induction l with
  | nil => simp [aset]
  | cons p rest ih =>
      by_cases hk : k = p.1
      · simp [alookup, hk] at h
      · simp [alookup, hk] at h
        simp [aset, hk, ih h]

theorem adel_keys_sublist {α β : Type} [DecidableEq α] (l : List (α × β)) (k : α) :
    ((adel l k).map Prod.fst).Sublist (l.map Prod.fst) := by
  induction l with
  | nil => simp [adel]
  | cons p rest ih =>
      by_cases hk : k = p.1
      · simp only [adel, hk, if_pos rfl]
        exact (List.sublist_cons_self _ _)
      · simp only [adel, hk, if_neg hk, List.map_cons]
        exact ih.cons₂ _

theorem alookup_adel_self_of_nodup {α β : Type} [DecidableEq α] (l : List (α × β)) (k : α)
    (h : (l.map Prod.fst).Nodup) : alookup (adel l k) k = none := by
  induction l with
  | nil => simp [adel, alookup]
  | cons p rest ih =>
      simp only [List.map_cons, List.nodup_cons] at h
      by_cases hk : k = p.1
      · subst hk
        simp only [adel, if_pos rfl]
        rw [alookup_eq_none_iff]
        exact h.1
      · simp only [adel, if_neg hk, alookup, if_neg hk]
        exact ih h.2

/-- Error outcomes of BackoffLM operations.  invalidState models the
error(...) plus exit() rejection in train and prob when is_normalized has
the wrong value; keyError models Python KeyError on a missing dict key;
zeroDivision models Python ZeroDivisionError. -/
inductive Err where
  | invalidState
  | keyError
  | zeroDivision
deriving DecidableEq

/-- The BackoffLM object: the dict the class itself subclasses (table),
plus the attributes set in BackoffLM.__init__. -/
structure Model where
  table : Table
  vocab : Vocab
  oov : String
  min_freq : ℕ
  ngram_size : ℕ
  is_normalized : Bool
deriving DecidableEq

/-- A freshly constructed BackoffLM() with the module defaults
(oov = OOV_TOKEN, min_freq = 2, ngram_size = 3). -/
def model0 : Model :=
  { table := [], vocab := [], oov := "__oov__", min_freq := 2, ngram_size := 3,
    is_normalized := false }

/-- Counter read: a missing key counts as 0. -/
def counterGet (v : Vocab) (k : Tok) : ℕ := (alookup v k).getD 0

/-- One step of collections.Counter.update: increment the count of one
token, appending a fresh key with count 1. -/
def counterInc (v : Vocab) (k : Tok) : Vocab :=
  match alookup v k with
  | some c => aset v k (c + 1)
  | none => v ++ [(k, 1)]

/-- collections.Counter.update with a list of tokens. -/
def counterUpdate (v : Vocab) (ks : List Tok) : Vocab := ks.foldl counterInc v

/-- The vocabulary counter accumulated by the loop in
BackoffLM.__train_vocab: for each utterance, count the None boundary token
plus the utterance's words (self.vocab.update([None] + utt.split())). -/
def rawCounts (utts : List (List String)) : Vocab :=
  utts.foldl (fun v u => counterUpdate v (none :: u.map some)) []

/-- The words treated as out-of-vocabulary in BackoffLM.__train_vocab:
tokens observed fewer than min_freq times (the set oov_words, taken here
in first-insertion order of the Counter). -/
def lowWords (mf : ℕ) (v : Vocab) : List Tok :=
  (v.filter (fun p => decide (p.2 < mf))).map Prod.fst

/-- The folding loop of BackoffLM.__train_vocab: for each low-frequency
word, self.vocab[self.oov] += self.vocab[word] followed by
del self.vocab[word]. -/
def foldOov (oovT : Tok) : Vocab → List Tok → Vocab
  | v, [] => v
  | v, w :: ws => foldOov oovT (adel (aset v oovT (counterGet v oovT + counterGet v w)) w) ws

/-- BackoffLM.__train_vocab: count all tokens, set self.vocab[self.oov] = 0,
then fold every low-frequency word into the oov count and delete it. -/
def trainVocab (oovS : String) (mf : ℕ) (utts : List (List String)) : Vocab :=
  let c := rawCounts utts
  foldOov (some oovS) (aset c (some oovS) 0) (lowWords mf c)

/-- BackoffLM.__to_vocab on a single token: keep it if it is a vocabulary
key, else replace it with the oov token. -/
def tokMap (m : Model) (t : Tok) : Tok :=
  if (alookup m.vocab t).isSome then t else some m.oov

/-- All contiguous windows of length n of a list (the n-grams nltk.ngrams
produces from an already padded sequence), in left-to-right order. -/
def windows (n : ℕ) : List Tok → List (List Tok)
  | [] => []
  | x :: xs =>
      if n ≤ xs.length + 1 then (x :: xs).take n :: windows n xs else []

/-- nltk.ngrams(tokens, n, pad_left=True, pad_right=True): n-grams of the
token list padded with n-1 None symbols on each side (empty for n = 0,
which generates nothing). -/
def ngramsPadded (n : ℕ) (toks : List String) : List (List Tok) :=
  if n = 0 then []
  else windows n (List.replicate (n - 1) none ++ toks.map some ++ List.replicate (n - 1) none)

/-- BackoffLM.__generate_ngrams: all padded k-grams for k = 1 .. max_ngram_size,
smaller sizes first. -/
def generateNgrams (toks : List String) (maxN : ℕ) : List (List Tok) :=
  ((List.range maxN).map (fun k => ngramsPadded (k + 1) toks)).flatten

/-- Read of a defaultdict(float): a missing key is inserted with value 0
and then read (models d[k] on collections.defaultdict(float)). -/
def ddGet (d : NextDist) (k : Tok) : ℚ × NextDist :=
  match alookup d k with
  | some v => (v, d)
  | none => (0, d ++ [(k, 0)])

/-- BackoffLM.__observe: map the ngram's context and word through the
vocabulary, create the context's defaultdict if absent, then
self[context][word] += 1. -/
def observe (m : Model) (t : Table) (g : List Tok) : Table :=
  let context := (g.dropLast).map (tokMap m)
  let word := tokMap m (g.getLastD none)
  let d := (alookup t context).getD []
  let vd := ddGet d word
  aset t context (aset vd.2 word (vd.1 + 1))

/-- Sum of the weights of a next-token distribution
(sum(self[context].values())). -/
def distTotal (d : NextDist) : ℚ := (d.map (fun p => p.2)).sum

/-- The per-context body of BackoffLM.__normalize: every stored weight c
becomes (c + 1) / (count + V) and the oov entry is then assigned 1 / V,
where V = len(self.vocab).  The zeroDivision errors model Python
ZeroDivisionError for the corresponding zero denominators. -/
def normDist (V : ℕ) (oovT : Tok) (d : NextDist) : Except Err NextDist :=
  if d ≠ [] ∧ distTotal d + (V : ℚ) = 0 then .error .zeroDivision
  else if V = 0 then .error .zeroDivision
  else
    .ok (aset (d.map (fun p => (p.1, (p.2 + 1) / (distTotal d + (V : ℚ))))) oovT
          (1 / (V : ℚ)))

/-- BackoffLM.__normalize over the whole context table. -/
def normalizeTable (V : ℕ) (oovT : Tok) : Table → Except Err Table
  | [] => .ok []
  | (c, d) :: rest =>
      match normDist V oovT d with
      | .error e => .error e
      | .ok d' =>
          match normalizeTable V oovT rest with
          | .error e => .error e
          | .ok rest' => .ok ((c, d') :: rest')

/-- BackoffLM.train: reject when already normalized, otherwise build the
vocabulary, observe every ngram of every utterance, and normalize. -/
def train (m : Model) (utts : List (List String)) : Except Err Model :=
  if m.is_normalized then .error .invalidState
  else
    match normalizeTable (trainVocab m.oov m.min_freq utts).length (some m.oov)
        (utts.foldl (fun t u => (generateNgrams u m.ngram_size).foldl
          (observe { m with vocab := trainVocab m.oov m.min_freq utts }) t) m.table) with
    | .error e => .error e
    | .ok t' =>
        .ok { m with vocab := trainVocab m.oov m.min_freq utts, table := t', is_normalized := true }

/-- The backoff loop of BackoffLM.prob: while the context is not a table
key and has length > 1, strip the leftmost token. -/
def backoff (t : Table) : List Tok → List Tok
  | [] => []
  | [x] => [x]
  | x :: y :: r =>
      if (alookup t (x :: y :: r)).isSome then x :: y :: r else backoff t (y :: r)

/-- Number of stripping steps the backoff loop performs. -/
def backoffSteps (t : Table) : List Tok → ℕ
  | [] => 0
  | [_] => 0
  | x :: y :: r =>
      if (alookup t (x :: y :: r)).isSome then 0 else backoffSteps t (y :: r) + 1

/-- Sum of all vocabulary counts (sum(self.vocab.values())). -/
def vocabTotal (v : Vocab) : ℕ := (v.map (fun p => p.2)).sum

/-- BackoffLM.__uni_p: unigram probability of a word.  Python raises
ZeroDivisionError when the vocabulary total is 0; that point is unreachable
from prob on a trained model (the lookup raises KeyError first), so the
rational division (which yields 0 there) is used. -/
def uniP (m : Model) (w : Tok) : ℚ :=
  (counterGet m.vocab w : ℚ) / (vocabTotal m.vocab : ℚ)

/-- BackoffLM.prob: reject when not normalized; map word and context
through the vocabulary; back off; then self[context] (KeyError when the
backed-off context is not a key), returning the stored probability when
the word is recorded there and the unigram probability otherwise. -/
def prob (m : Model) (word : Tok) (context : List Tok) : Except Err (ℚ × Model) :=
  if m.is_normalized then
    match alookup m.table (backoff m.table (context.map (tokMap m))) with
    | none => .error .keyError
    | some d =>
        if (alookup d (tokMap m word)).isSome then
          .ok ((ddGet d (tokMap m word)).1,
            { m with table := aset m.table (backoff m.table (context.map (tokMap m)))
                              (ddGet d (tokMap m word)).2 })
        else .ok (uniP m (tokMap m word), m)
  else .error .invalidState

/-- The scoring loop of BackoffLM.perplexity: for each remaining ngram,
split into context and word and accumulate log_p += log2(prob), threading
the model state through each prob call.  The IEEE floats of the source are
idealized as reals. -/
noncomputable def scoreNgrams (m : Model) (acc : ℝ) : List (List Tok) → Except Err (ℝ × Model)
  | [] => .ok (acc, m)
  | g :: gs =>
      match prob m (g.getLastD none) g.dropLast with
      | .error e => .error e
      | .ok (p, m') => scoreNgrams m' (acc + Real.logb 2 ((p : ℚ) : ℝ)) gs

/-- BackoffLM.perplexity: pad and take n-grams of exactly ngram_size, drop
the final one, sum the log2 probabilities, and return
2 ^ (-log_p / (len(text) + 1)). -/
noncomputable def perplexity (m : Model) (utt : List String) : Except Err (ℝ × Model) :=
  match scoreNgrams m 0 ((ngramsPadded m.ngram_size utt).dropLast) with
  | .error e => .error e
  | .ok (s, m') => .ok ((2 : ℝ) ^ (-s / ((utt.length : ℝ) + 1)), m')

/-- The perplexity-collection loop of BackoffLM.perplexity_multi. -/
noncomputable def perpList (m : Model) : List (List String) → Except Err (List ℝ × Model)
  | [] => .ok ([], m)
  | u :: us =>
      match perplexity m u with
      | .error e => .error e
      | .ok (r, m') =>
          match perpList m' us with
          | .error e => .error e
          | .ok (rs, m'') => .ok (r :: rs, m'')

/-- np.mean of a list of floats.  On an empty list numpy computes 0.0/0.0,
which is IEEE NaN; NaN is modelled as the value none. -/
noncomputable def npMean (xs : List ℝ) : Option ℝ :=
  if xs.length = 0 then none else some (xs.sum / (xs.length : ℝ))

/-- np.exp2 on a possibly-NaN float: exp2(NaN) = NaN. -/
noncomputable def npExp2 (x : Option ℝ) : Option ℝ := x.map (fun y => (2 : ℝ) ^ y)

/-- BackoffLM.perplexity_multi: per-utterance perplexities, then
np.exp2(np.mean(np.log2(perplexities))).  The Option ℝ in the result is
some r for an ordinary float r and none for IEEE NaN. -/
noncomputable def perplexity_multi (m : Model) (utts : List (List String)) :
    Except Err (Option ℝ × Model) :=
  match perpList m utts with
  | .error e => .error e
  | .ok (rs, m') => .ok (npExp2 (npMean (rs.map (Real.logb 2))), m')

/-- Is the outcome a normal return (no exception)? -/
def isOkE {α : Type} : Except Err α → Bool
  | .ok _ => true
  | .error _ => false

/-- The rational returned by a successful prob call (0 on an exception). -/
def okValQ : Except Err (ℚ × Model) → ℚ
  | .ok p => p.1
  | .error _ => 0

/-- The real returned by a successful perplexity call (0 on an exception). -/
noncomputable def okValR : Except Err (ℝ × Model) → ℝ
  | .ok p => p.1
  | .error _ => 0

/-- The model state after a scoring call, with a default for exceptions. -/
def okModelD {α : Type} : Except Err (α × Model) → Model → Model
  | .ok p, _ => p.2
  | .error _, d => d

/-- The model returned by a successful train call, with a default. -/
def okTrainD : Except Err Model → Model → Model
  | .ok m, _ => m
  | .error _, d => d

/-- A concrete trained model used by the witnesses: BackoffLM() with the
module defaults trained on the two-utterance corpus ["a b", "a b"].
Every token reaches min_freq = 2, so nothing is folded into oov. -/
def M1 : Model := okTrainD (train model0 [["a", "b"], ["a", "b"]]) model0


/-- Well-formedness of a normalized context table, as __normalize
establishes it: every stored weight lies in (0, 1] and every context's
distribution carries an entry for the oov token. -/
abbrev WFtable (oovT : Tok) (t : Table) : Prop :=
  ∀ p ∈ t, (∀ q ∈ p.2, 0 < q.2 ∧ q.2 ≤ 1) ∧ (alookup p.2 oovT).isSome = true

/-- Well-formedness of a trained vocabulary: every entry other than the
oov token has a positive count. -/
abbrev WFvocab (oovS : String) (v : Vocab) : Prop :=
  ∀ p ∈ v, p.1 ≠ some oovS → 1 ≤ p.2

theorem prob_ok_model (m : Model) (w : Tok) (c : List Tok) (r : ℚ) (m' : Model)
    (h : prob m w c = .ok (r, m')) : m' = m := by
  unfold prob at h
  by_cases hn : m.is_normalized
  · rw [if_pos hn] at h
    split at h
    · exact Except.noConfusion h
    · rename_i d hd
      split at h
      · rename_i hw
        obtain ⟨v, hv⟩ := Option.isSome_iff_exists.mp hw
        simp only [ddGet, hv] at h
        rw [Except.ok.injEq, Prod.mk.injEq] at h
        rw [aset_lookup_self m.table _ d hd] at h
        exact h.2.symm
      · rw [Except.ok.injEq, Prod.mk.injEq] at h
        exact h.2.symm
  · rw [if_neg hn] at h
    exact Except.noConfusion h

theorem prob_ok_bounds (m : Model) (w : Tok) (c : List Tok) (r : ℚ) (m' : Model)
    (ht : WFtable (some m.oov) m.table) (hv : WFvocab m.oov m.vocab)
    (h : prob m w c = .ok (r, m')) : 0 < r ∧ r ≤ 1 := by
  unfold prob at h
  by_cases hn : m.is_normalized
  · rw [if_pos hn] at h
    split at h
    · exact Except.noConfusion h
    · rename_i d hd
      have hdwf := ht _ (alookup_mem _ _ _ hd)
      split at h
      · rename_i hw
        obtain ⟨val, hval⟩ := Option.isSome_iff_exists.mp hw
        simp only [ddGet, hval] at h
        rw [Except.ok.injEq, Prod.mk.injEq] at h
        rw [← h.1]
        exact hdwf.1 _ (alookup_mem _ _ _ hval)
      · rename_i hw
        rw [Except.ok.injEq, Prod.mk.injEq] at h
        rw [← h.1]
        -- the unigram fallback: the looked-up word is not recorded for the
        -- context, hence (oov being always recorded) it is a real
        -- vocabulary word with positive count
        have hwne : tokMap m w ≠ some m.oov := by
          intro heq
          rw [heq] at hw
          rw [hdwf.2] at hw
          exact hw rfl
        have hmem : (alookup m.vocab (tokMap m w)).isSome = true := by
          unfold tokMap at hwne ⊢
          by_cases hin : (alookup m.vocab w).isSome
          · rw [if_pos hin]
            exact hin
          · rw [if_neg hin] at hwne
            exact absurd rfl hwne
        obtain ⟨cnt, hcnt⟩ := Option.isSome_iff_exists.mp hmem
        have hcnt1 : 1 ≤ cnt := hv _ (alookup_mem _ _ _ hcnt) hwne
        have hle : cnt ≤ vocabTotal m.vocab := by
          refine List.single_le_sum (fun x _ => Nat.zero_le x) _ ?_
          exact List.mem_map_of_mem _ (alookup_mem _ _ _ hcnt)
        have htot : 0 < vocabTotal m.vocab :=
          Nat.lt_of_lt_of_le (Nat.lt_of_lt_of_le Nat.zero_lt_one hcnt1) hle
        have htotQ : (0 : ℚ) < (vocabTotal m.vocab : ℚ) := by exact_mod_cast htot
        have hgetQ : (counterGet m.vocab (tokMap m w) : ℚ) = (cnt : ℚ) := by
          unfold counterGet
          rw [hcnt]
          rfl
        constructor
        · unfold uniP
          rw [hgetQ]
          apply div_pos _ htotQ
          exact_mod_cast Nat.lt_of_lt_of_le Nat.zero_lt_one hcnt1
        · unfold uniP
          rw [hgetQ, div_le_one htotQ]
          exact_mod_cast hle
  · rw [if_neg hn] at h
    exact Except.noConfusion h

theorem scoreNgrams_ok_model (gs : List (List Tok)) (m : Model) (acc s : ℝ) (m' : Model)
    (h : scoreNgrams m acc gs = .ok (s, m')) : m' = m := by
  induction gs generalizing m acc with
  | nil =>
      unfold scoreNgrams at h
      rw [Except.ok.injEq, Prod.mk.injEq] at h
      exact h.2.symm
  | cons g gs ih =>
      unfold scoreNgrams at h
      split at h
      · exact Except.noConfusion h
      · rename_i p mq hq
        rw [prob_ok_model m _ _ p mq hq] at h
        exact ih _ _ h

theorem scoreNgrams_ok_le (gs : List (List Tok)) (m : Model) (acc s : ℝ) (m' : Model)
    (ht : WFtable (some m.oov) m.table) (hv : WFvocab m.oov m.vocab)
    (h : scoreNgrams m acc gs = .ok (s, m')) : s ≤ acc := by
  induction gs generalizing acc with
  | nil =>
      unfold scoreNgrams at h
      rw [Except.ok.injEq, Prod.mk.injEq] at h
      exact le_of_eq h.1.symm
  | cons g gs ih =>
      unfold scoreNgrams at h
      split at h
      · exact Except.noConfusion h
      · rename_i p mq hq
        have hqm : mq = m := prob_ok_model m _ _ p mq hq
        have hb := prob_ok_bounds m _ _ p mq ht hv hq
        rw [hqm] at h
        have hrec := ih _ h
        have hlog : Real.logb 2 ((p : ℚ) : ℝ) ≤ 0 := by
          apply Real.logb_nonpos
          · norm_num
          · exact_mod_cast le_of_lt hb.1
          · exact_mod_cast hb.2
        linarith

theorem perplexity_ok_model (m : Model) (u : List String) (r : ℝ) (m' : Model)
    (h : perplexity m u = .ok (r, m')) : m' = m := by
  unfold perplexity at h
  split at h
  · exact Except.noConfusion h
  · rename_i s1 mq hq
    rw [Except.ok.injEq, Prod.mk.injEq] at h
    rw [← h.2]
    exact scoreNgrams_ok_model _ m 0 s1 mq hq

theorem perplexity_ok_pos (m : Model) (u : List String) (r : ℝ) (m' : Model)
    (h : perplexity m u = .ok (r, m')) : 0 < r := by
  unfold perplexity at h
  split at h
  · exact Except.noConfusion h
  · rename_i s1 mq hq
    rw [Except.ok.injEq, Prod.mk.injEq] at h
    rw [← h.1]
    exact Real.rpow_pos_of_pos (by norm_num) _

/-- Wrap a perplexity outcome as a perplexity_multi outcome (an ordinary
float return r becomes the non-NaN value some r). -/
def okWrap : Except Err (ℝ × Model) → Except Err (Option ℝ × Model)
  | .error e => .error e
  | .ok p => .ok (some p.1, p.2)

/-- C9: Scoring immutability: a probability query and a perplexity query
leave the whole model (vocabulary, context table, configuration and
normalized flag) unchanged: whenever the query returns, the returned model
state equals the input model state (okModelD defaults to the input model on
an exception, so the equation is unconditional). -/
theorem scoring_immutable (m : Model) (w : Tok) (c : List Tok) (u : List String) :
    okModelD (prob m w c) m = m ∧ okModelD (perplexity m u) m = m := by
  constructor
  · cases h : prob m w c with
    | error e => rfl
    | ok p => exact prob_ok_model m w c p.1 p.2 (by rw [h])
  · cases h : perplexity m u with
    | error e => rfl
    | ok p => exact perplexity_ok_model m u p.1 p.2 (by rw [h])

/-- C10: perplexity_multi on an empty utterance list returns normally for
every model (trained or not): np.mean of the empty list is IEEE NaN
(modelled as none) and np.exp2 propagates it, so the call returns the NaN
value rather than raising. -/
theorem perplexity_multi_empty (m : Model) :
    perplexity_multi m [] = .ok (none, m) := rfl

/-- C7: Geometric-mean correctness: perplexity_multi of the one-element
list [u] and of the repeated list [u, u] both agree with perplexity u
(returning some r when perplexity returns r, and the same exception when
perplexity raises). -/
theorem geometric_mean_single_repeat (m : Model) (u : List String) :
    perplexity_multi m [u] = okWrap (perplexity m u) ∧
    perplexity_multi m [u, u] = okWrap (perplexity m u) := by
  cases h : perplexity m u with
  | error e =>
      constructor <;> simp [perplexity_multi, perpList, h, okWrap]
  | ok p =>
      have hm : p.2 = m := perplexity_ok_model m u p.1 p.2 (by rw [h])
      have hr : 0 < p.1 := perplexity_ok_pos m u p.1 p.2 (by rw [h])
      have hlog : (2 : ℝ) ^ Real.logb 2 p.1 = p.1 :=
        Real.rpow_logb (by norm_num) (by norm_num) hr
      constructor
      · simp [perplexity_multi, perpList, h, okWrap, npMean, npExp2, hlog]
      · simp only [perplexity_multi, perpList, h, hm, okWrap, npMean, npExp2]
        simp only [List.map_cons, List.map_nil, List.length_cons, List.length_nil,
          List.sum_cons, List.sum_nil, Option.map_some]
        norm_num
        exact hlog

theorem windows_length (n : ℕ) (hn : 1 ≤ n) (l : List Tok) :
    (windows n l).length = l.length + 1 - n := by
  induction l with
  | nil =>
      simp only [windows, List.length_nil]
      omega
  | cons x xs ih =>
      unfold windows
      by_cases h : n ≤ xs.length + 1
      · rw [if_pos h]
        simp only [List.length_cons, ih]
        omega
      · rw [if_neg h]
        simp only [List.length_cons, List.length_nil]
        omega

theorem ngramsPadded_length (n : ℕ) (hn : 1 ≤ n) (l : List String) :
    (ngramsPadded n l).length = l.length + n - 1 := by
  unfold ngramsPadded
  rw [if_neg (by omega)]
  rw [windows_length n hn]
  simp only [List.length_append, List.length_replicate, List.length_map]
  omega

/-- C8 (amended): training on an empty corpus does not fail fast: it
completes and produces a normalized model whose vocabulary's only entry is
the out-of-vocabulary token with count zero and whose context table is
empty, for every configuration of a fresh model. -/
theorem train_empty_corpus (oovS : String) (mf n : ℕ) :
    train { table := [], vocab := [], oov := oovS, min_freq := mf, ngram_size := n,
            is_normalized := false } [] =
      .ok { table := [], vocab := [(some oovS, 0)], oov := oovS, min_freq := mf,
            ngram_size := n, is_normalized := true } := rfl

/-- C8 counterexample: with the default configuration, train on the empty
corpus returns the degenerate normalized model (vocabulary containing only
the oov token with count 0) instead of failing fast. -/
theorem train_empty_corpus_cex :
    train model0 [] =
      .ok { table := [], vocab := [(some "__oov__", 0)], oov := "__oov__", min_freq := 2,
            ngram_size := 3, is_normalized := true } := rfl

/-- C5 (amended): the state machine of the model: train on a normalized
model is rejected (error + exit, modelled as invalidState) without touching
the model; prob on an unnormalized model is always rejected; perplexity on
an unnormalized model is rejected whenever at least one n-gram is scored,
which holds exactly when utterance length + ngram_size is at least 3 (and
therefore always under the default order 3). -/
theorem state_machine (m : Model) (utts : List (List String)) (w : Tok) (c : List Tok)
    (u : List String) :
    (m.is_normalized = true → train m utts = .error .invalidState) ∧
    (m.is_normalized = false → prob m w c = .error .invalidState) ∧
    (m.is_normalized = false → 1 ≤ m.ngram_size → 3 ≤ u.length + m.ngram_size →
      perplexity m u = .error .invalidState) := by
  refine ⟨?_, ?_, ?_⟩
  · intro h
    unfold train
    rw [if_pos h]
  · intro h
    unfold prob
    rw [if_neg (by rw [h]; exact Bool.false_ne_true)]
  · intro h h1 h3
    have hlen : 0 < ((ngramsPadded m.ngram_size u).dropLast).length := by
      rw [List.length_dropLast, ngramsPadded_length _ h1]
      omega
    obtain ⟨g, gs, hg⟩ := List.exists_cons_of_ne_nil (List.ne_nil_of_length_pos hlen)
    unfold perplexity
    rw [hg]
    unfold scoreNgrams prob
    rw [if_neg (by rw [h]; exact Bool.false_ne_true)]

/-- C5 counterexample: perplexity called before normalization is NOT always
rejected: on a fresh (unnormalized) model with ngram_size = 2 and the empty
utterance, no n-gram remains after the final one is dropped, so no
probability query runs and perplexity returns a value (2 ^ 0 = 1). -/
theorem state_machine_cex :
    ({ model0 with ngram_size := 2 } : Model).is_normalized = false ∧
    isOkE (perplexity { model0 with ngram_size := 2 } []) = true := ⟨rfl, rfl⟩

theorem backoffSteps_le (t : Table) (l : List Tok) : backoffSteps t l ≤ l.length := by
  induction l with
  | nil => simp [backoffSteps]
  | cons x xs ih =>
      cases xs with
      | nil => simp [backoffSteps]
      | cons y r =>
          unfold backoffSteps
          by_cases h : (alookup t (x :: y :: r)).isSome = true
          · rw [if_pos h]
            simp
          · rw [if_neg h]
            simp only [List.length_cons] at ih ⊢
            omega

/-- C2 (amended): Backoff totality: the backoff loop performs at most
len(context) stripping steps, and whenever the backed-off mapped context is
a key of the context table, the probability query returns normally on an
unchanged model: the stored probability when the mapped word is recorded
for that context, and the unigram fallback otherwise.  (When the backed-off
context is not a key, the lookup self[context] raises KeyError instead.) -/
theorem backoff_total (m : Model) (w : Tok) (ctx : List Tok)
    (hn : m.is_normalized = true)
    (hk : (alookup m.table (backoff m.table (ctx.map (tokMap m)))).isSome = true) :
    backoffSteps m.table (ctx.map (tokMap m)) ≤ ctx.length ∧
    prob m w ctx = .ok
      ((alookup ((alookup m.table (backoff m.table (ctx.map (tokMap m)))).getD [])
          (tokMap m w)).getD (uniP m (tokMap m w)), m) := by
  constructor
  · have h1 := backoffSteps_le m.table (ctx.map (tokMap m))
    rw [List.length_map] at h1
    exact h1
  · obtain ⟨d, hd⟩ := Option.isSome_iff_exists.mp hk
    unfold prob
    rw [if_pos hn, hd]
    simp only [Option.getD_some]
    by_cases hw : (alookup d (tokMap m w)).isSome = true
    · obtain ⟨val, hval⟩ := Option.isSome_iff_exists.mp hw
      rw [if_pos hw]
      simp only [ddGet, hval]
      rw [aset_lookup_self m.table _ d hd]
      rfl
    · rw [if_neg hw]
      rw [Option.not_isSome_iff_eq_none] at hw
      rw [hw]
      rfl

unseal Rat.add Rat.mul Rat.inv in
/-- C2 counterexample: a normalized model produced by training on
["a b", "a b"] (min_freq 2, order 3; no word is folded into oov, so the
context (oov,) is not a table key): the probability query on the unseen
context ("c",) maps it to (oov,), backs off to a one-token context that is
not a key, and raises KeyError instead of returning a value. -/
theorem backoff_total_cex :
    train model0 [["a", "b"], ["a", "b"]] = .ok M1 ∧
    prob M1 (some "x") [some "c"] = .error .keyError := ⟨rfl, rfl⟩

unseal Rat.add Rat.mul Rat.inv in
/-- C2 witness: the amended theorem applied to the trained model M1 at the
in-vocabulary context ("b",). -/
theorem backoff_total_witness :
    (M1.is_normalized = true ∧
     (alookup M1.table (backoff M1.table (([some "b"] : List Tok).map (tokMap M1)))).isSome
       = true) ∧
    (backoffSteps M1.table (([some "b"] : List Tok).map (tokMap M1)) ≤
       ([some "b"] : List Tok).length ∧
     prob M1 (some "a") [some "b"] = .ok
       ((alookup ((alookup M1.table
            (backoff M1.table (([some "b"] : List Tok).map (tokMap M1)))).getD [])
          (tokMap M1 (some "a"))).getD (uniP M1 (tokMap M1 (some "a"))), M1)) :=
  ⟨⟨rfl, rfl⟩, backoff_total M1 (some "a") [some "b"] rfl rfl⟩

/-- C3 (amended): whenever the probability query returns a value on a
normalized model satisfying the training invariants (stored weights in
(0, 1], an oov entry in every context distribution, positive counts for
the non-oov vocabulary entries; train_WF proves every successful training
run establishes them), the returned probability lies in (0, 1]; in
particular the unigram fallback is never zero or negative there. -/
theorem prob_range (m : Model) (w : Tok) (ctx : List Tok)
    (ht : WFtable (some m.oov) m.table) (hv : WFvocab m.oov m.vocab)
    (hok : isOkE (prob m w ctx) = true) :
    0 < okValQ (prob m w ctx) ∧ okValQ (prob m w ctx) ≤ 1 := by
  cases h : prob m w ctx with
  | error e =>
      rw [h] at hok
      exact Bool.noConfusion hok
  | ok p =>
      have hb := prob_ok_bounds m w ctx p.1 p.2 ht hv (by rw [h])
      exact hb

unseal Rat.add Rat.mul Rat.inv in
/-- C3 counterexample: on the trained model M1 the probability query does
not return a value for every word and context: the unseen context ("zz",)
raises KeyError. -/
theorem prob_range_cex :
    M1.is_normalized = true ∧ prob M1 (some "q") [some "zz"] = .error .keyError := ⟨rfl, rfl⟩

unseal Rat.add Rat.mul Rat.inv in
/-- C3 witness: the amended theorem applied to the trained model M1, where
the query ("a" given context "a") takes the unigram fallback branch and
returns 1/3. -/
theorem prob_range_witness :
    (WFtable (some M1.oov) M1.table ∧ WFvocab M1.oov M1.vocab ∧
     isOkE (prob M1 (some "a") [some "a"]) = true) ∧
    (0 < okValQ (prob M1 (some "a") [some "a"]) ∧ okValQ (prob M1 (some "a") [some "a"]) ≤ 1) :=
  ⟨⟨by decide, by decide, rfl⟩, prob_range M1 (some "a") [some "a"] (by decide) (by decide) rfl⟩

/-- C6 (amended): whenever perplexity returns a value on a normalized model
satisfying the training invariants (established by every successful
training run, see train_WF), the value is at least 1 (each scored
probability lies in (0, 1], so the accumulated log2 sum is nonpositive, the
entropy -log_p / (len + 1) is nonnegative, and 2 ^ entropy is at least 1). -/
theorem perplexity_lower_bound (m : Model) (u : List String)
    (ht : WFtable (some m.oov) m.table) (hv : WFvocab m.oov m.vocab)
    (hok : isOkE (perplexity m u) = true) :
    1 ≤ okValR (perplexity m u) := by
  cases h : perplexity m u with
  | error e =>
      rw [h] at hok
      exact Bool.noConfusion hok
  | ok p =>
      unfold perplexity at h
      split at h
      · exact Except.noConfusion h
      · rename_i s1 mq hq
        rw [Except.ok.injEq, Prod.mk.injEq] at h
        have hs : s1 ≤ 0 := scoreNgrams_ok_le _ m 0 s1 mq ht hv hq
        have he : 0 ≤ -s1 / ((u.length : ℝ) + 1) := by
          apply div_nonneg (by linarith)
          positivity
        have hfin : (1 : ℝ) ≤ (2 : ℝ) ^ (-s1 / ((u.length : ℝ) + 1)) :=
          Real.one_le_rpow (by norm_num) he
        show (1 : ℝ) ≤ p.1
        rw [← h.1]
        exact hfin

unseal Rat.add Rat.mul Rat.inv in
/-- C6 counterexample: perplexity does not return a value for every
utterance on the trained model M1: scoring "x" reaches the unseen
one-token context (oov,) and raises KeyError. -/
theorem perplexity_lower_bound_cex :
    M1.is_normalized = true ∧ perplexity M1 ["x"] = .error .keyError := ⟨rfl, rfl⟩

unseal Rat.add Rat.mul Rat.inv in
/-- C6 witness: the amended theorem applied to the trained model M1 and the
utterance "a b", whose scoring succeeds. -/
theorem perplexity_lower_bound_witness :
    (WFtable (some M1.oov) M1.table ∧ WFvocab M1.oov M1.vocab ∧
     isOkE (perplexity M1 ["a", "b"]) = true) ∧
    1 ≤ okValR (perplexity M1 ["a", "b"]) :=
  ⟨⟨by decide, by decide, rfl⟩,
    perplexity_lower_bound M1 ["a", "b"] (by decide) (by decide) rfl⟩

theorem normDist_ok (V : ℕ) (oovT : Tok) (d d' : NextDist) (h : normDist V oovT d = .ok d') :
    d' = aset (d.map (fun p => (p.1, (p.2 + 1) / (distTotal d + (V : ℚ))))) oovT
          (1 / (V : ℚ)) := by
  unfold normDist at h
  split at h
  · exact Except.noConfusion h
  · split at h
    · exact Except.noConfusion h
    · rw [Except.ok.injEq] at h
      exact h.symm

/-- C1: Normalization: for every context recorded in the table with raw
weights d, after __normalize succeeds the context's distribution assigns
the oov next-token exactly 1 / V (V = len(vocab), oov entry overwritten
last), and every other next-token w carries (c + 1) / (total + V) where c
is its raw weight and total the sum of the raw weights of the context. -/
theorem normalize_laplace (v : Vocab) (oovT : Tok) (t t' : Table) (c : List Tok)
    (d : NextDist) (w : Tok)
    (h : normalizeTable v.length oovT t = .ok t') (hc : alookup t c = some d) :
    alookup ((alookup t' c).getD []) oovT = some (1 / (v.length : ℚ)) ∧
    (w ≠ oovT →
      alookup ((alookup t' c).getD []) w
        = (alookup d w).map (fun x => (x + 1) / (distTotal d + (v.length : ℚ)))) := by
  induction t generalizing t' with
  | nil => exact absurd hc (by simp [alookup])
  | cons p rest ih =>
      obtain ⟨c0, d0⟩ := p
      unfold normalizeTable at h
      split at h
      · exact Except.noConfusion h
      · rename_i d0' hd0
        split at h
        · exact Except.noConfusion h
        · rename_i rest' hrest
          rw [Except.ok.injEq] at h
          subst h
          by_cases hcp : c = c0
          · have hd : d0 = d := by
              unfold alookup at hc
              rw [if_pos hcp] at hc
              exact Option.some.injEq _ _ ▸ hc
            have hl : alookup ((c0, d0') :: rest') c = some d0' := by
              simp [alookup, hcp]
            rw [hl]
            simp only [Option.getD_some]
            rw [normDist_ok _ _ _ _ hd0, hd]
            constructor
            · exact alookup_aset_eq _ _ _
            · intro hw
              rw [alookup_aset_ne _ _ _ _ hw]
              exact alookup_map_val (fun x => (x + 1) / (distTotal d + (v.length : ℚ))) d w
          · have hc' : alookup rest c = some d := by
              unfold alookup at hc
              rw [if_neg hcp] at hc
              exact hc
            have hl : alookup ((c0, d0') :: rest') c = alookup rest' c := by
              simp [alookup, hcp]
            rw [hl]
            exact ih rest' hrest hc'

/-- A two-entry vocabulary used by the C1 witness. -/
def Vw : Vocab := [(some "a", 2), (some "__oov__", 0)]

/-- A one-context table of raw counts used by the C1 witness. -/
def Tw : Table := [([], [(some "a", 3)])]

/-- The normalized table for Tw: (3+1)/(3+2) for "a", then 1/2 for oov. -/
def Tw2 : Table := [([], [(some "a", 4 / 5), (some "__oov__", 1 / 2)])]

unseal Rat.add Rat.mul Rat.inv in
/-- C1 witness: the normalization theorem applied to the concrete table Tw
with vocabulary size 2. -/
theorem normalize_laplace_witness :
    (normalizeTable Vw.length (some "__oov__") Tw = .ok Tw2 ∧
     alookup Tw [] = some [(some "a", 3)]) ∧
    (alookup ((alookup Tw2 ([] : List Tok)).getD []) (some "__oov__")
        = some (1 / (Vw.length : ℚ)) ∧
     ((some "a" : Tok) ≠ some "__oov__" →
       alookup ((alookup Tw2 ([] : List Tok)).getD []) (some "a")
         = (alookup [(some "a", 3)] (some "a")).map
             (fun x => (x + 1) / (distTotal [(some "a", 3)] + (Vw.length : ℚ))))) :=
  ⟨⟨rfl, rfl⟩,
    normalize_laplace Vw (some "__oov__") Tw Tw2 [] [(some "a", 3)] (some "a") rfl rfl⟩

theorem counterInc_keysND (v : Vocab) (k : Tok) (h : (v.map Prod.fst).Nodup) :
    ((counterInc v k).map Prod.fst).Nodup := by
  unfold counterInc
  cases hk : alookup v k with
  | some c =>
      rw [aset_keys_of_isSome v k (c + 1) (by rw [hk]; rfl)]
      exact h
  | none =>
      rw [List.map_append]
      simp only [List.map_cons, List.map_nil]
      rw [List.nodup_append]
      refine ⟨h, List.nodup_singleton _, ?_⟩
      intro a ha hb
      simp only [List.mem_singleton] at hb
      exact (alookup_eq_none_iff v a).mp (hb ▸ hk) ha

theorem counterUpdate_keysND (ks : List Tok) (v : Vocab) (h : (v.map Prod.fst).Nodup) :
    ((counterUpdate v ks).map Prod.fst).Nodup := by
  induction ks generalizing v with
  | nil => exact h
  | cons k ks ih =>
      unfold counterUpdate at ih ⊢
      rw [List.foldl_cons]
      exact ih _ (counterInc_keysND v k h)

theorem foldCounts_keysND (utts : List (List String)) (v : Vocab)
    (h : (v.map Prod.fst).Nodup) :
    ((utts.foldl (fun v u => counterUpdate v (none :: u.map some)) v).map Prod.fst).Nodup := by
  induction utts generalizing v with
  | nil => exact h
  | cons u us ih =>
      rw [List.foldl_cons]
      exact ih _ (counterUpdate_keysND _ v h)

theorem rawCounts_keysND (utts : List (List String)) :
    ((rawCounts utts).map Prod.fst).Nodup :=
  foldCounts_keysND utts [] (by simp)

theorem lowWords_nodup (mf : ℕ) (v : Vocab) (h : (v.map Prod.fst).Nodup) :
    (lowWords mf v).Nodup := by
  unfold lowWords
  exact List.Nodup.sublist ((List.filter_sublist v).map Prod.fst) h

theorem mem_lowWords (mf : ℕ) (v : Vocab) (k : Tok) (val : ℕ)
    (hm : (k, val) ∈ v) (hlt : val < mf) : k ∈ lowWords mf v := by
  unfold lowWords
  refine List.mem_map.mpr ⟨(k, val), ?_, rfl⟩
  rw [List.mem_filter]
  exact ⟨hm, by simpa using hlt⟩

theorem counterGet_congr (v1 v2 : Vocab) (k : Tok)
    (h : alookup v1 k = alookup v2 k) : counterGet v1 k = counterGet v2 k := by
  unfold counterGet
  rw [h]

theorem foldOov_spec (oovT : Tok) (ws : List Tok) (v : Vocab)
    (hnd : (v.map Prod.fst).Nodup) (hov : (alookup v oovT).isSome = true)
    (hwo : oovT ∉ ws) (hwnd : ws.Nodup) :
    (alookup (foldOov oovT v ws) oovT).isSome = true ∧
    counterGet (foldOov oovT v ws) oovT
      = counterGet v oovT + (ws.map (counterGet v)).sum ∧
    (∀ k, k ≠ oovT → k ∉ ws → alookup (foldOov oovT v ws) k = alookup v k) ∧
    (∀ w ∈ ws, alookup (foldOov oovT v ws) w = none) := by
  induction ws generalizing v with
  | nil =>
      exact ⟨hov, by simp [foldOov], fun k _ _ => rfl,
        fun w hw => absurd hw (List.not_mem_nil w)⟩
  | cons w ws ih =>
      have hwne : w ≠ oovT := fun he => hwo (he ▸ List.mem_cons_self w ws)
      have hwnotmem : w ∉ ws := (List.nodup_cons.mp hwnd).1
      have haset_keys :
          (aset v oovT (counterGet v oovT + counterGet v w)).map Prod.fst
            = v.map Prod.fst := aset_keys_of_isSome _ _ _ hov
      have hnd1 :
          ((adel (aset v oovT (counterGet v oovT + counterGet v w)) w).map Prod.fst).Nodup :=
        List.Nodup.sublist (adel_keys_sublist _ _) (haset_keys ▸ hnd)
      have hov1 : (alookup (adel (aset v oovT (counterGet v oovT + counterGet v w)) w)
          oovT).isSome = true := by
        rw [alookup_adel_ne _ _ _ (Ne.symm hwne), alookup_aset_eq]
        rfl
      have hget1oov : counterGet (adel (aset v oovT (counterGet v oovT + counterGet v w)) w)
          oovT = counterGet v oovT + counterGet v w := by
        unfold counterGet
        rw [alookup_adel_ne _ _ _ (Ne.symm hwne), alookup_aset_eq]
        rfl
      have hsame : ∀ k, k ≠ oovT → k ≠ w →
          alookup (adel (aset v oovT (counterGet v oovT + counterGet v w)) w) k
            = alookup v k := by
        intro k hk1 hk2
        rw [alookup_adel_ne _ _ _ hk2, alookup_aset_ne _ _ _ _ hk1]
      have hwnone : alookup (adel (aset v oovT (counterGet v oovT + counterGet v w)) w) w
          = none := by
        apply alookup_adel_self_of_nodup
        rw [haset_keys]
        exact hnd
      obtain ⟨s1, s2, s3, s4⟩ := ih _ hnd1 hov1
        (fun hm => hwo (List.mem_cons_of_mem _ hm)) (List.nodup_cons.mp hwnd).2
      have hstep : foldOov oovT v (w :: ws)
          = foldOov oovT (adel (aset v oovT (counterGet v oovT + counterGet v w)) w) ws := rfl
      refine ⟨?_, ?_, ?_, ?_⟩
      · rw [hstep]
        exact s1
      · rw [hstep, s2, hget1oov]
        have hcong : ws.map (counterGet (adel (aset v oovT
            (counterGet v oovT + counterGet v w)) w)) = ws.map (counterGet v) := by
          apply List.map_congr_left
          intro x hx
          exact counterGet_congr _ _ _ (hsame x
            (fun he => hwo (he ▸ List.mem_cons_of_mem _ hx))
            (fun he => hwnotmem (he ▸ hx)))
        rw [hcong]
        simp only [List.map_cons, List.sum_cons]
        omega
      · intro k hk1 hk2
        rw [hstep, s3 k hk1 (fun hm => hk2 (List.mem_cons_of_mem _ hm)),
          hsame k hk1 (fun he => hk2 (he ▸ List.mem_cons_self w ws))]
      · intro x hx
        rcases List.mem_cons.mp hx with he | hm
        · subst he
          rw [hstep, s3 x hwne hwnotmem]
          exact hwnone
        · rw [hstep]
          exact s4 x hm

/-- C4 (amended): Vocabulary folding invariant, provided the literal oov
token does not itself occur among the low-frequency words of the corpus:
after __train_vocab, every retained key other than the oov token has count
at least min_freq, the oov token's count equals the sum of the raw counts
of all removed (low-frequency) tokens, and the oov token is present even
when its count is zero. -/
theorem vocab_folding (oovS : String) (mf : ℕ) (utts : List (List String))
    (h : (some oovS) ∉ lowWords mf (rawCounts utts)) :
    (∀ k val, alookup (trainVocab oovS mf utts) k = some val → k ≠ some oovS → mf ≤ val) ∧
    counterGet (trainVocab oovS mf utts) (some oovS)
      = ((lowWords mf (rawCounts utts)).map
          (fun x => counterGet (rawCounts utts) x)).sum ∧
    (alookup (trainVocab oovS mf utts) (some oovS)).isSome = true := by
  have hcnd : ((rawCounts utts).map Prod.fst).Nodup := rawCounts_keysND utts
  have hnd0 : ((aset (rawCounts utts) (some oovS) 0).map Prod.fst).Nodup := by
    cases hk : alookup (rawCounts utts) (some oovS) with
    | some x =>
        rw [aset_keys_of_isSome _ _ _ (by rw [hk]; rfl)]
        exact hcnd
    | none =>
        rw [aset_keys_of_none _ _ _ hk]
        rw [List.nodup_append]
        refine ⟨hcnd, List.nodup_singleton _, ?_⟩
        intro a ha hb
        simp only [List.mem_singleton] at hb
        exact (alookup_eq_none_iff _ _).mp (hb ▸ hk) ha
  have hov0 : (alookup (aset (rawCounts utts) (some oovS) 0) (some oovS)).isSome = true := by
    rw [alookup_aset_eq]
    rfl
  have hwnd : (lowWords mf (rawCounts utts)).Nodup := lowWords_nodup mf _ hcnd
  obtain ⟨s1, s2, s3, s4⟩ :=
    foldOov_spec (some oovS) (lowWords mf (rawCounts utts))
      (aset (rawCounts utts) (some oovS) 0) hnd0 hov0 h hwnd
  have htv : trainVocab oovS mf utts
      = foldOov (some oovS) (aset (rawCounts utts) (some oovS) 0)
          (lowWords mf (rawCounts utts)) := rfl
  refine ⟨?_, ?_, ?_⟩
  · intro k val hk hkne
    by_cases hkw : k ∈ lowWords mf (rawCounts utts)
    · rw [htv, s4 k hkw] at hk
      exact Option.noConfusion hk
    · rw [htv, s3 k hkne hkw, alookup_aset_ne _ _ _ _ hkne] at hk
      by_contra hlt
      push_neg at hlt
      exact hkw (mem_lowWords mf _ k val (alookup_mem _ _ _ hk) hlt)
  · rw [htv, s2]
    have hz : counterGet (aset (rawCounts utts) (some oovS) 0) (some oovS) = 0 := by
      unfold counterGet
      rw [alookup_aset_eq]
      rfl
    have hcong : (lowWords mf (rawCounts utts)).map
        (counterGet (aset (rawCounts utts) (some oovS) 0))
          = (lowWords mf (rawCounts utts)).map (fun x => counterGet (rawCounts utts) x) := by
      apply List.map_congr_left
      intro x hx
      exact counterGet_congr _ _ _
        (alookup_aset_ne _ _ _ _ (fun he => h (he ▸ hx)))
    rw [hz, hcong]
    simp
  · rw [htv]
    exact s1

/-- C4 counterexample: when the corpus contains the literal oov token
"__oov__" with a count below min_freq, __train_vocab deletes the oov key
itself: training the vocabulary on the single utterance
"__oov__ a a" (min_freq 2) leaves a vocabulary without the oov token at
all, refuting the claim that the oov token is always present. -/
theorem vocab_folding_cex :
    alookup (trainVocab "__oov__" 2 [["__oov__", "a", "a"]]) (some "__oov__") = none := by
  decide

/-- C4 witness: the amended theorem applied to the three-utterance corpus
of the spec's concrete scenario ("the cat sat" / "the cat ran" /
"the dog sat", min_freq 2), where "ran" and "dog" are folded into oov. -/
theorem vocab_folding_witness :
    ((some "__oov__" : Tok) ∉ lowWords 2
        (rawCounts [["the", "cat", "sat"], ["the", "cat", "ran"], ["the", "dog", "sat"]])) ∧
    ((∀ k val, alookup (trainVocab "__oov__" 2
        [["the", "cat", "sat"], ["the", "cat", "ran"], ["the", "dog", "sat"]]) k = some val →
        k ≠ some "__oov__" → 2 ≤ val) ∧
     counterGet (trainVocab "__oov__" 2
        [["the", "cat", "sat"], ["the", "cat", "ran"], ["the", "dog", "sat"]]) (some "__oov__")
       = ((lowWords 2 (rawCounts
            [["the", "cat", "sat"], ["the", "cat", "ran"], ["the", "dog", "sat"]])).map
           (fun x => counterGet (rawCounts
            [["the", "cat", "sat"], ["the", "cat", "ran"], ["the", "dog", "sat"]]) x)).sum ∧
     (alookup (trainVocab "__oov__" 2
        [["the", "cat", "sat"], ["the", "cat", "ran"], ["the", "dog", "sat"]])
        (some "__oov__")).isSome = true) :=
  ⟨by decide, vocab_folding "__oov__" 2
    [["the", "cat", "sat"], ["the", "cat", "ran"], ["the", "dog", "sat"]] (by decide)⟩

unseal Rat.add Rat.mul Rat.inv in
/-- C5 witness: the state machine theorem applied to the trained model M1
(train rejected after normalization) and to the fresh model0 (prob and
perplexity rejected before normalization). -/
theorem state_machine_witness :
    train M1 [["a"]] = .error .invalidState ∧
    prob model0 (some "a") [] = .error .invalidState ∧
    perplexity model0 ["a"] = .error .invalidState :=
  ⟨(state_machine M1 [["a"]] (some "a") [] ["a"]).1 rfl,
   (state_machine model0 [["a"]] (some "a") [] ["a"]).2.1 rfl,
   (state_machine model0 [["a"]] (some "a") [] ["a"]).2.2 rfl (by decide) (by decide)⟩

theorem alookup_append {α β : Type} [DecidableEq α] (l1 l2 : List (α × β)) (k : α) :
    alookup (l1 ++ l2) k = ((alookup l1 k).map some).getD (alookup l2 k) := by
  induction l1 with
  | nil => simp [alookup]
  | cons p rest ih =>
      by_cases hk : k = p.1
      · simp [alookup, hk]
      · simp [alookup, hk, ih]

theorem counterInc_ge_one (v : Vocab) (t : Tok)
    (h : ∀ k val, alookup v k = some val → 1 ≤ val) :
    ∀ k val, alookup (counterInc v t) k = some val → 1 ≤ val := by
  intro k val hk
  unfold counterInc at hk
  cases hl : alookup v t with
  | some c =>
      rw [hl] at hk
      by_cases hkt : k = t
      · subst hkt
        rw [alookup_aset_eq] at hk
        have := h k c hl
        cases hk
        omega
      · rw [alookup_aset_ne _ _ _ _ hkt] at hk
        exact h k val hk
  | none =>
      rw [hl, alookup_append] at hk
      cases hv : alookup v k with
      | some x =>
          rw [hv] at hk
          simp at hk
          have hx := h k x hv
          omega
      | none =>
          rw [hv] at hk
          simp only [Option.map_none', Option.getD_none, alookup] at hk
          by_cases hkt : k = t
          · rw [if_pos hkt] at hk
            cases hk
            exact le_refl 1
          · rw [if_neg hkt] at hk
            exact Option.noConfusion hk

theorem counterUpdate_ge_one (ks : List Tok) (v : Vocab)
    (h : ∀ k val, alookup v k = some val → 1 ≤ val) :
    ∀ k val, alookup (counterUpdate v ks) k = some val → 1 ≤ val := by
  induction ks generalizing v with
  | nil => exact h
  | cons t ks ih =>
      unfold counterUpdate at ih ⊢
      rw [List.foldl_cons]
      exact ih _ (counterInc_ge_one v t h)

theorem rawCounts_ge_one (utts : List (List String)) :
    ∀ k val, alookup (rawCounts utts) k = some val → 1 ≤ val := by
  unfold rawCounts
  suffices hgen : ∀ (v : Vocab), (∀ k val, alookup v k = some val → 1 ≤ val) →
      ∀ k val, alookup (utts.foldl (fun v u => counterUpdate v (none :: u.map some)) v) k
        = some val → 1 ≤ val by
    exact hgen [] (fun k val hk => absurd hk (by simp [alookup]))
  induction utts with
  | nil => exact fun v hv => hv
  | cons u us ih =>
      intro v hv
      rw [List.foldl_cons]
      exact ih _ (counterUpdate_ge_one _ v hv)

theorem aset_keysND {α β : Type} [DecidableEq α] (l : List (α × β)) (k : α) (v : β)
    (h : (l.map Prod.fst).Nodup) : ((aset l k v).map Prod.fst).Nodup := by
  cases hk : alookup l k with
  | some x =>
      rw [aset_keys_of_isSome _ _ _ (by rw [hk]; rfl)]
      exact h
  | none =>
      rw [aset_keys_of_none _ _ _ hk]
      rw [List.nodup_append]
      refine ⟨h, List.nodup_singleton _, ?_⟩
      intro a ha hb
      simp only [List.mem_singleton] at hb
      exact (alookup_eq_none_iff _ _).mp (hb ▸ hk) ha

theorem adel_keysND {α β : Type} [DecidableEq α] (l : List (α × β)) (k : α)
    (h : (l.map Prod.fst).Nodup) : ((adel l k).map Prod.fst).Nodup :=
  List.Nodup.sublist (adel_keys_sublist l k) h

theorem foldOov_keysND (oovT : Tok) (ws : List Tok) (v : Vocab)
    (h : (v.map Prod.fst).Nodup) : ((foldOov oovT v ws).map Prod.fst).Nodup := by
  induction ws generalizing v with
  | nil => exact h
  | cons w ws ih => exact ih _ (adel_keysND _ _ (aset_keysND _ _ _ h))

theorem foldOov_lookup_ne (oovT : Tok) (ws : List Tok) (v : Vocab) (k : Tok) (val : ℕ)
    (hnd : (v.map Prod.fst).Nodup) (hk : k ≠ oovT)
    (h : alookup (foldOov oovT v ws) k = some val) : alookup v k = some val := by
  induction ws generalizing v with
  | nil => exact h
  | cons w ws ih =>
      have hnd1 := adel_keysND _ w (aset_keysND v oovT (counterGet v oovT + counterGet v w) hnd)
      have h1 := ih _ hnd1 h
      by_cases hkw : k = w
      · rw [hkw] at h1
        rw [alookup_adel_self_of_nodup _ _
          (aset_keysND v oovT (counterGet v oovT + counterGet v w) hnd)] at h1
        exact Option.noConfusion h1
      · rw [alookup_adel_ne _ _ _ hkw, alookup_aset_ne _ _ _ _ hk] at h1
        exact h1

theorem mem_alookup_of_nodup {α β : Type} [DecidableEq α] (l : List (α × β)) (p : α × β)
    (hnd : (l.map Prod.fst).Nodup) (hm : p ∈ l) : alookup l p.1 = some p.2 := by
  induction l with
  | nil => exact absurd hm (List.not_mem_nil p)
  | cons q rest ih =>
      simp only [List.map_cons, List.nodup_cons] at hnd
      rcases List.mem_cons.mp hm with he | hmem
      · subst he
        unfold alookup
        rw [if_pos rfl]
      · unfold alookup
        by_cases hk : p.1 = q.1
        · exact absurd (hk ▸ List.mem_map_of_mem Prod.fst hmem) hnd.1
        · rw [if_neg hk]
          exact ih hnd.2 hmem

theorem trainVocab_keysND (oovS : String) (mf : ℕ) (utts : List (List String)) :
    ((trainVocab oovS mf utts).map Prod.fst).Nodup :=
  foldOov_keysND _ _ _ (aset_keysND _ _ _ (rawCounts_keysND utts))

/-- Every trained vocabulary is well-formed: each entry other than the oov
token carries the positive count it received from the corpus counter. -/
theorem trainVocab_WFvocab (oovS : String) (mf : ℕ) (utts : List (List String)) :
    WFvocab oovS (trainVocab oovS mf utts) := by
  intro p hp hne
  have hl : alookup (trainVocab oovS mf utts) p.1 = some p.2 :=
    mem_alookup_of_nodup _ p (trainVocab_keysND oovS mf utts) hp
  have h0 : alookup (aset (rawCounts utts) (some oovS) 0) p.1 = some p.2 :=
    foldOov_lookup_ne _ _ _ p.1 p.2 (aset_keysND _ _ _ (rawCounts_keysND utts)) hne hl
  rw [alookup_aset_ne _ _ _ _ hne] at h0
  exact rawCounts_ge_one utts p.1 p.2 h0

theorem mem_aset {α β : Type} [DecidableEq α] (l : List (α × β)) (k : α) (v : β)
    (p : α × β) (h : p ∈ aset l k v) : p ∈ l ∨ p = (k, v) := by
  induction l with
  | nil =>
      simp only [aset, List.mem_singleton] at h
      exact Or.inr h
  | cons q rest ih =>
      unfold aset at h
      by_cases hk : k = q.1
      · rw [if_pos hk] at h
        rcases List.mem_cons.mp h with he | hm
        · exact Or.inr (by rw [he, hk])
        · exact Or.inl (List.mem_cons_of_mem _ hm)
      · rw [if_neg hk] at h
        rcases List.mem_cons.mp h with he | hm
        · exact Or.inl (he ▸ List.mem_cons_self q rest)
        · rcases ih hm with h1 | h2
          · exact Or.inl (List.mem_cons_of_mem _ h1)
          · exact Or.inr h2

/-- Nonnegativity of all raw weights in a table (the pre-normalization
invariant of the counting phase). -/
abbrev TabNonneg (t : Table) : Prop := ∀ p ∈ t, ∀ q ∈ p.2, 0 ≤ q.2

theorem observe_nonneg (m : Model) (t : Table) (g : List Tok) (h : TabNonneg t) :
    TabNonneg (observe m t g) := by
  intro p hp q hq
  unfold observe at hp
  have hd0 : ∀ r ∈ ((alookup t (g.dropLast.map (tokMap m))).getD [] : NextDist), 0 ≤ r.2 := by
    intro r hr
    cases hl : alookup t (g.dropLast.map (tokMap m)) with
    | none =>
        rw [hl] at hr
        exact absurd hr (List.not_mem_nil r)
    | some d0 =>
        rw [hl] at hr
        exact h _ (alookup_mem _ _ _ hl) r hr
  have hdd : ∀ r ∈ (ddGet ((alookup t (g.dropLast.map (tokMap m))).getD [])
      (tokMap m (g.getLastD none))).2, 0 ≤ r.2 := by
    intro r hr
    unfold ddGet at hr
    cases hw : alookup ((alookup t (g.dropLast.map (tokMap m))).getD [])
        (tokMap m (g.getLastD none)) with
    | some x =>
        rw [hw] at hr
        exact hd0 r hr
    | none =>
        rw [hw] at hr
        rcases List.mem_append.mp hr with h1 | h2
        · exact hd0 r h1
        · simp only [List.mem_singleton] at h2
          rw [h2]
  have hval : 0 ≤ (ddGet ((alookup t (g.dropLast.map (tokMap m))).getD [])
      (tokMap m (g.getLastD none))).1 := by
    unfold ddGet
    cases hw : alookup ((alookup t (g.dropLast.map (tokMap m))).getD [])
        (tokMap m (g.getLastD none)) with
    | some x =>
        simp only [hw]
        exact hd0 _ (alookup_mem _ _ _ hw)
    | none =>
        simp only [hw]
        exact le_refl 0
  rcases mem_aset _ _ _ p hp with hin | heq
  · exact h p hin q hq
  · rw [heq] at hq
    rcases mem_aset _ _ _ q hq with hin2 | heq2
    · exact hdd q hin2
    · rw [heq2]
      have := hval
      simp only
      linarith

theorem foldObserve_nonneg (m : Model) (gs : List (List Tok)) (t : Table)
    (h : TabNonneg t) : TabNonneg (gs.foldl (observe m) t) := by
  induction gs generalizing t with
  | nil => exact h
  | cons g gs ih =>
      rw [List.foldl_cons]
      exact ih _ (observe_nonneg m t g h)

theorem trainTable_nonneg (m : Model) (utts : List (List String)) (t : Table)
    (h : TabNonneg t) :
    TabNonneg (utts.foldl (fun t u => (generateNgrams u m.ngram_size).foldl (observe m) t) t) := by
  induction utts generalizing t with
  | nil => exact h
  | cons u us ih =>
      rw [List.foldl_cons]
      exact ih _ (foldObserve_nonneg m _ t h)

theorem normDist_ok_V (V : ℕ) (oovT : Tok) (d d' : NextDist)
    (h : normDist V oovT d = .ok d') : 1 ≤ V := by
  unfold normDist at h
  split at h
  · exact Except.noConfusion h
  · split at h
    · exact Except.noConfusion h
    · rename_i h2
      omega

theorem normalizeTable_WFtable (V : ℕ) (oovT : Tok) (t t' : Table)
    (h0 : TabNonneg t) (h : normalizeTable V oovT t = .ok t') : WFtable oovT t' := by
  induction t generalizing t' with
  | nil =>
      unfold normalizeTable at h
      rw [Except.ok.injEq] at h
      rw [← h]
      intro p hp
      exact absurd hp (List.not_mem_nil p)
  | cons p0 rest ih =>
      obtain ⟨c0, d0⟩ := p0
      unfold normalizeTable at h
      split at h
      · exact Except.noConfusion h
      · rename_i d0' hd0
        split at h
        · exact Except.noConfusion h
        · rename_i rest' hrest
          rw [Except.ok.injEq] at h
          subst h
          have hV : 1 ≤ V := normDist_ok_V V oovT d0 d0' hd0
          have hVQ : (1 : ℚ) ≤ (V : ℚ) := by exact_mod_cast hV
          have hd0nn : ∀ q ∈ d0, 0 ≤ q.2 := h0 (c0, d0) (List.mem_cons_self _ _)
          have htot : 0 ≤ distTotal d0 := by
            unfold distTotal
            apply List.sum_nonneg
            intro x hx
            obtain ⟨q, hq, hqx⟩ := List.mem_map.mp hx
            rw [← hqx]
            exact hd0nn q hq
          intro p hp
          rcases List.mem_cons.mp hp with he | hm
          · subst he
            rw [normDist_ok V oovT d0 d0' hd0]
            constructor
            · intro q hq
              rcases mem_aset _ _ _ q hq with hin | heq
              · obtain ⟨x, hx, hxq⟩ := List.mem_map.mp hin
                rw [← hxq]
                have hx0 : 0 ≤ x.2 := hd0nn x hx
                have hxle : x.2 ≤ distTotal d0 := by
                  unfold distTotal
                  exact List.single_le_sum
                    (fun y hy => by
                      obtain ⟨q2, hq2, hq2y⟩ := List.mem_map.mp hy
                      rw [← hq2y]
                      exact hd0nn q2 hq2) _ (List.mem_map_of_mem _ hx)
                constructor
                · apply div_pos (by linarith)
                  linarith
                · rw [div_le_one (by linarith)]
                  linarith
              · rw [heq]
                constructor
                · apply div_pos one_pos
                  linarith
                · rw [div_le_one (by linarith)]
                  exact hVQ
            · rw [alookup_aset_eq]
              rfl
          · exact ih rest' (fun q hq => h0 q (List.mem_cons_of_mem _ hq)) hrest p hm

/-- Every successful training run (from a model whose pre-existing raw
table weights are nonnegative, in particular from a fresh model with an
empty table) produces a model satisfying the invariants WFtable and
WFvocab assumed by the probability-range and perplexity-bound theorems. -/
theorem train_WF (m : Model) (utts : List (List String)) (m' : Model)
    (h0 : TabNonneg m.table) (h : train m utts = .ok m') :
    WFtable (some m'.oov) m'.table ∧ WFvocab m'.oov m'.vocab ∧ m'.is_normalized = true := by
  unfold train at h
  split at h
  · exact Except.noConfusion h
  · split at h
    · exact Except.noConfusion h
    · rename_i t' ht'
      rw [Except.ok.injEq] at h
      rw [← h]
      refine ⟨?_, ?_, rfl⟩
      · exact normalizeTable_WFtable _ _ _ _
          (trainTable_nonneg _ utts m.table h0) ht'
      · exact trainVocab_WFvocab m.oov m.min_freq utts
